import Mathlib

set_option maxRecDepth 8192

deriving instance DecidableEq for Except

/-!
Verification model of the bvault-js client-side encryption library, as
documented by this repository (the documentation is the only source: the
library implementation itself is not part of the repo, so every definition
below is modelled from the specification's words).

The model follows the spec's architecture: a byte/text codec (base64), a
key-derivation capability, an AEAD cipher capability, a crypto facade
(`encrypt` / `decrypt`), and the SecureStore key-value wrapper with its
initialization lifecycle.  Bytes are `Nat`s below 256 in `List`s; the
external cryptographic capabilities (PBKDF2, AES-GCM) are modelled as
ideal deterministic primitives: key derivation is injective in
(password, salt), and the AEAD ciphertext authenticates exactly the key,
the nonce and the plaintext (perfect integrity, the ideal-cipher reading
of the spec's tamper-detection contract; confidentiality is not modelled
because no claim is about it).
-/

namespace BVault

/-- A byte sequence: natural numbers, well-formed when every entry is
below 256. -/
abbrev Bytes := List Nat

/-- Well-formedness of a byte sequence: every entry fits in one byte. -/
def ByteOk (bs : Bytes) : Prop := ∀ b ∈ bs, b < 256

instance (bs : Bytes) : Decidable (ByteOk bs) := by
  unfold ByteOk; infer_instance

/-- Self-delimiting framing of a byte list: a unary length header (one `1`
per element, closed by a `0`) followed by the list itself.  Used by the
ideal capability models to build injective concatenations. -/
def unaryLp (l : Bytes) : Bytes := List.replicate l.length 1 ++ 0 :: l

theorem unaryLp_ne_nil (l : Bytes) : unaryLp l ≠ [] := by
  unfold unaryLp
  cases l <;> simp

theorem unary_header_inj {m n : Nat} {x y : Bytes}
    (h : List.replicate m 1 ++ 0 :: x = List.replicate n 1 ++ 0 :: y) :
    m = n ∧ x = y := by
  induction m generalizing n with
  | zero =>
    cases n with
    | zero => simpa using h
    | succ k => simp [List.replicate_succ] at h
  | succ m ih =>
    cases n with
    | zero => simp [List.replicate_succ] at h
    | succ k =>
      simp only [List.replicate_succ, List.cons_append, List.cons.injEq] at h
      obtain ⟨mk, xy⟩ := ih h.2
      exact ⟨by omega, xy⟩

/-- Two framed segments followed by arbitrary tails agree only if the
framed lists and the tails agree. -/
theorem unaryLp_append_inj {a b x y : Bytes}
    (h : unaryLp a ++ x = unaryLp b ++ y) : a = b ∧ x = y := by
  unfold unaryLp at h
  simp only [List.append_assoc, List.cons_append] at h
  obtain ⟨hlen, htail⟩ := unary_header_inj h
  have := List.append_inj htail (by omega)
  exact ⟨this.1, this.2⟩

theorem byteOk_append {a b : Bytes} (ha : ByteOk a) (hb : ByteOk b) :
    ByteOk (a ++ b) := by
  intro x hx
  rcases List.mem_append.mp hx with h | h
  · exact ha x h
  · exact hb x h

theorem byteOk_unaryLp {l : Bytes} (hl : ByteOk l) : ByteOk (unaryLp l) := by
  intro x hx
  unfold unaryLp at hx
  rcases List.mem_append.mp hx with h | h
  · have := List.eq_of_mem_replicate h
    omega
  · rcases List.mem_cons.mp h with h | h
    · omega
    · exact hl x h

/-- Modelled from the spec: the byte form of a plaintext character.  The
platform UTF-8 codec is external; the model serializes each code point in
three big-endian bytes, which is an injective text-to-bytes encoding. -/
def charBytes (c : Char) : Bytes :=
  [c.toNat / 65536, c.toNat / 256 % 256, c.toNat % 256]

/-- Modelled from the spec: text-to-bytes encoding of a whole string. -/
def strBytes (s : String) : Bytes := s.data.flatMap charBytes

theorem char_toNat_lt (c : Char) : c.toNat < 1114112 := by
  have h0 : c.toNat = c.val.toNat := rfl
  rcases c.valid with h | h <;> omega

theorem byteOk_charBytes (c : Char) : ByteOk (charBytes c) := by
  have := char_toNat_lt c
  intro x hx
  unfold charBytes at hx
  simp only [List.mem_cons, List.not_mem_nil, or_false] at hx
  rcases hx with h | h | h <;> omega

theorem byteOk_strBytes (s : String) : ByteOk (strBytes s) := by
  intro x hx
  unfold strBytes at hx
  rcases List.mem_flatMap.mp hx with ⟨c, _, hc⟩
  exact byteOk_charBytes c x hc

/-- Modelled from the spec: bytes-to-text decoding, the partial inverse of
`strBytes`; fails on byte groups that do not form a valid code point. -/
def bytesToChars : Bytes → Option (List Char)
  | [] => some []
  | b0 :: b1 :: b2 :: rest =>
    let n := b0 * 65536 + b1 * 256 + b2
    if h : Nat.isValidChar n then
      match bytesToChars rest with
      | some cs => some (Char.ofNat n :: cs)
      | none => none
    else none
  | _ => none

/-- Modelled from the spec: bytes-to-text decoding of a whole string. -/
def bytesToStr (bs : Bytes) : Option String :=
  (bytesToChars bs).map String.mk

theorem bytesToChars_charBytes (c : Char) (rest : Bytes) :
    bytesToChars (charBytes c ++ rest) =
      (bytesToChars rest).map (fun cs => c :: cs) := by
  have hlt := char_toNat_lt c
  have hval : Nat.isValidChar
      (c.toNat / 65536 * 65536 + c.toNat / 256 % 256 * 256 + c.toNat % 256) := by
    have : c.toNat / 65536 * 65536 + c.toNat / 256 % 256 * 256 + c.toNat % 256
        = c.toNat := by omega
    rw [this]; exact c.valid
  have hre : c.toNat / 65536 * 65536 + c.toNat / 256 % 256 * 256 + c.toNat % 256
      = c.toNat := by omega
  simp only [charBytes, List.cons_append, List.nil_append, bytesToChars, hre,
    dif_pos (hre ▸ hval)]
  cases hrest : bytesToChars rest with
  | none => simp [hrest]
  | some cs => simp [hrest, hre, Char.ofNat_toNat]

theorem bytesToStr_strBytes (s : String) : bytesToStr (strBytes s) = some s := by
  suffices h : bytesToChars (strBytes s) = some s.data by
    simp [bytesToStr, h]
  unfold strBytes
  induction s.data with
  | nil => simp [bytesToChars]
  | cons c cs ih =>
    simp only [List.flatMap_cons]
    rw [bytesToChars_charBytes, ih]
    rfl

theorem strBytes_inj {s t : String} (h : strBytes s = strBytes t) : s = t := by
  have hs := bytesToStr_strBytes s
  have ht := bytesToStr_strBytes t
  rw [h, ht] at hs
  exact (Option.some.inj hs).symm

/-! ### Base64 codec

Modelled from the spec: every external representation of a cryptographic
byte sequence is base64 text.  The decoder is strict (canonical): padding
bits must be zero and only the standard alphabet is accepted, so decoding
is the exact partial inverse of encoding. -/

/-- The base64 character of a sextet value (callers keep the value below
64; other inputs map to a character outside the alphabet). -/
def b64char (n : Nat) : Char :=
  if n < 26 then Char.ofNat (65 + n)
  else if n < 52 then Char.ofNat (97 + (n - 26))
  else if n < 62 then Char.ofNat (48 + (n - 52))
  else if n = 62 then '+'
  else '/'

/-- The sextet value of a base64 character; `none` outside the alphabet. -/
def b64val (c : Char) : Option Nat :=
  if 65 ≤ c.toNat ∧ c.toNat ≤ 90 then some (c.toNat - 65)
  else if 97 ≤ c.toNat ∧ c.toNat ≤ 122 then some (c.toNat - 97 + 26)
  else if 48 ≤ c.toNat ∧ c.toNat ≤ 57 then some (c.toNat - 48 + 52)
  else if c = '+' then some 62
  else if c = '/' then some 63
  else none

theorem b64val_b64char : ∀ n, n < 64 → b64val (b64char n) = some n := by decide

theorem b64val_lt {c : Char} {n : Nat} (h : b64val c = some n) : n < 64 := by
  unfold b64val at h
  split_ifs at h <;> simp at h <;> omega

theorem b64char_b64val {c : Char} {n : Nat} (h : b64val c = some n) :
    b64char n = c := by
  unfold b64val at h
  unfold b64char
  split_ifs at h with h1 h2 h3 h4 h5 <;> simp at h
  · rw [if_pos (by omega)]
    have he : 65 + n = c.toNat := by omega
    rw [he, Char.ofNat_toNat]
  · rw [if_neg (by omega), if_pos (by omega)]
    have he : 97 + (n - 26) = c.toNat := by omega
    rw [he, Char.ofNat_toNat]
  · rw [if_neg (by omega), if_neg (by omega), if_pos (by omega)]
    have he : 48 + (n - 52) = c.toNat := by omega
    rw [he, Char.ofNat_toNat]
  · have he : n = 62 := by omega
    subst he
    rw [h4]
    decide
  · have he : n = 63 := by omega
    subst he
    rw [h5]
    decide

theorem b64val_eq : b64val '=' = none := by decide

/-- Base64 encoding of a byte list, as characters. -/
def b64encodeB : Bytes → List Char
  | [] => []
  | [a] => [b64char (a / 4), b64char (a % 4 * 16), '=', '=']
  | [a, b] => [b64char (a / 4), b64char (a % 4 * 16 + b / 16),
               b64char (b % 16 * 4), '=']
  | a :: b :: c :: rest =>
      b64char (a / 4) :: b64char (a % 4 * 16 + b / 16) ::
      b64char (b % 16 * 4 + c / 64) :: b64char (c % 64) :: b64encodeB rest

/-- Strict base64 decoding of characters back to bytes: rejects anything
that is not the canonical encoding of some byte list. -/
def b64decodeB : List Char → Option Bytes
  | [] => some []
  | c0 :: c1 :: c2 :: c3 :: rest =>
    if c2 = '=' then
      if c3 = '=' ∧ rest = [] then
        match b64val c0, b64val c1 with
        | some s0, some s1 =>
          if s1 % 16 = 0 then some [s0 * 4 + s1 / 16] else none
        | _, _ => none
      else none
    else if c3 = '=' then
      if rest = [] then
        match b64val c0, b64val c1, b64val c2 with
        | some s0, some s1, some s2 =>
          if s2 % 4 = 0 then
            some [s0 * 4 + s1 / 16, s1 % 16 * 16 + s2 / 4]
          else none
        | _, _, _ => none
      else none
    else
      match b64val c0, b64val c1, b64val c2, b64val c3, b64decodeB rest with
      | some s0, some s1, some s2, some s3, some bs =>
        some ((s0 * 4 + s1 / 16) :: (s1 % 16 * 16 + s2 / 4) ::
              (s2 % 4 * 64 + s3) :: bs)
      | _, _, _, _, _ => none
  | _ => none

theorem b64char_ne_eq {n : Nat} (h : n < 64) : b64char n ≠ '=' := by
  intro hc
  have := b64val_b64char n h
  rw [hc, b64val_eq] at this
  exact Option.noConfusion this

theorem b64decodeB_b64encodeB :
    ∀ bs : Bytes, ByteOk bs → b64decodeB (b64encodeB bs) = some bs
  | [], _ => rfl
  | [a], h => by
    have ha : a < 256 := h a (by simp)
    have e0 : b64val (b64char (a / 4)) = some (a / 4) :=
      b64val_b64char _ (by omega)
    have e1 : b64val (b64char (a % 4 * 16)) = some (a % 4 * 16) :=
      b64val_b64char _ (by omega)
    have hp : a % 4 * 16 % 16 = 0 := by omega
    simp [b64encodeB, b64decodeB, e0, e1, hp]
    omega
  | [a, b], h => by
    have ha : a < 256 := h a (by simp)
    have hb : b < 256 := h b (by simp)
    have h2 : b64char (b % 16 * 4) ≠ '=' := b64char_ne_eq (by omega)
    have e0 : b64val (b64char (a / 4)) = some (a / 4) :=
      b64val_b64char _ (by omega)
    have e1 : b64val (b64char (a % 4 * 16 + b / 16)) = some (a % 4 * 16 + b / 16) :=
      b64val_b64char _ (by omega)
    have e2 : b64val (b64char (b % 16 * 4)) = some (b % 16 * 4) :=
      b64val_b64char _ (by omega)
    have hp : b % 16 * 4 % 4 = 0 := by omega
    simp [b64encodeB, b64decodeB, h2, e0, e1, e2, hp]
    omega
  | [a, b, c], h => by
    have ha : a < 256 := h a (by simp)
    have hb : b < 256 := h b (by simp)
    have hc : c < 256 := h c (by simp)
    have h2 : b64char (b % 16 * 4 + c / 64) ≠ '=' := b64char_ne_eq (by omega)
    have h3 : b64char (c % 64) ≠ '=' := b64char_ne_eq (by omega)
    have e0 : b64val (b64char (a / 4)) = some (a / 4) :=
      b64val_b64char _ (by omega)
    have e1 : b64val (b64char (a % 4 * 16 + b / 16)) = some (a % 4 * 16 + b / 16) :=
      b64val_b64char _ (by omega)
    have e2 : b64val (b64char (b % 16 * 4 + c / 64)) = some (b % 16 * 4 + c / 64) :=
      b64val_b64char _ (by omega)
    have e3 : b64val (b64char (c % 64)) = some (c % 64) :=
      b64val_b64char _ (by omega)
    simp [b64encodeB, b64decodeB, h2, h3, e0, e1, e2, e3]
    omega
  | a :: b :: c :: d :: rest, h => by
    have ha : a < 256 := h a (by simp)
    have hb : b < 256 := h b (by simp)
    have hc : c < 256 := h c (by simp)
    have hrest : ByteOk (d :: rest) := by
      intro x hx
      apply h x
      simp only [List.mem_cons] at hx ⊢
      tauto
    have ih := b64decodeB_b64encodeB (d :: rest) hrest
    have h2 : b64char (b % 16 * 4 + c / 64) ≠ '=' := b64char_ne_eq (by omega)
    have h3 : b64char (c % 64) ≠ '=' := b64char_ne_eq (by omega)
    have e0 : b64val (b64char (a / 4)) = some (a / 4) :=
      b64val_b64char _ (by omega)
    have e1 : b64val (b64char (a % 4 * 16 + b / 16)) = some (a % 4 * 16 + b / 16) :=
      b64val_b64char _ (by omega)
    have e2 : b64val (b64char (b % 16 * 4 + c / 64)) = some (b % 16 * 4 + c / 64) :=
      b64val_b64char _ (by omega)
    have e3 : b64val (b64char (c % 64)) = some (c % 64) :=
      b64val_b64char _ (by omega)
    simp [b64encodeB, b64decodeB, h2, h3, e0, e1, e2, e3, ih]
    omega

/-- Strictness: a successfully decoded string is the canonical encoding of
its byte list, so strict base64 decoding is injective. -/
theorem b64encodeB_of_decodeB :
    ∀ cs : List Char, ∀ bs : Bytes,
      b64decodeB cs = some bs → b64encodeB bs = cs
  | [], bs, h => by
    simp only [b64decodeB, Option.some.injEq] at h
    rw [← h]
    rfl
  | [_], _, h => by simp [b64decodeB] at h
  | [_, _], _, h => by simp [b64decodeB] at h
  | [_, _, _], _, h => by simp [b64decodeB] at h
  | c0 :: c1 :: c2 :: c3 :: rest, bs, h => by
    simp only [b64decodeB] at h
    by_cases hc2 : c2 = '='
    · rw [if_pos hc2] at h
      by_cases hc3 : c3 = '=' ∧ rest = []
      · rw [if_pos hc3] at h
        obtain ⟨hc3e, hre⟩ := hc3
        cases hv0 : b64val c0 <;> rw [hv0] at h
        next => exact absurd h (by simp)
        next s0 =>
        cases hv1 : b64val c1 <;> rw [hv1] at h
        next => exact absurd h (by simp)
        next s1 =>
        simp only at h
        by_cases hp : s1 % 16 = 0
        · rw [if_pos hp] at h
          have hs0 := b64val_lt hv0
          have hs1 := b64val_lt hv1
          simp only [Option.some.injEq] at h
          subst hre hc3e hc2
          rw [← h]
          have g0 : (s0 * 4 + s1 / 16) / 4 = s0 := by omega
          have g1 : (s0 * 4 + s1 / 16) % 4 * 16 = s1 := by omega
          simp only [b64encodeB, g0, g1, b64char_b64val hv0, b64char_b64val hv1]
        · rw [if_neg hp] at h
          exact absurd h (by simp)
      · rw [if_neg hc3] at h
        exact absurd h (by simp)
    · rw [if_neg hc2] at h
      by_cases hc3 : c3 = '='
      · rw [if_pos hc3] at h
        by_cases hre : rest = []
        · rw [if_pos hre] at h
          cases hv0 : b64val c0 <;> rw [hv0] at h
          next => exact absurd h (by simp)
          next s0 =>
          cases hv1 : b64val c1 <;> rw [hv1] at h
          next => exact absurd h (by simp)
          next s1 =>
          cases hv2 : b64val c2 <;> rw [hv2] at h
          next => exact absurd h (by simp)
          next s2 =>
          simp only at h
          by_cases hp : s2 % 4 = 0
          · rw [if_pos hp] at h
            have hs0 := b64val_lt hv0
            have hs1 := b64val_lt hv1
            have hs2 := b64val_lt hv2
            simp only [Option.some.injEq] at h
            subst hre hc3
            rw [← h]
            have g0 : (s0 * 4 + s1 / 16) / 4 = s0 := by omega
            have g1 : (s0 * 4 + s1 / 16) % 4 * 16 + (s1 % 16 * 16 + s2 / 4) / 16
                = s1 := by omega
            have g2 : (s1 % 16 * 16 + s2 / 4) % 16 * 4 = s2 := by omega
            simp only [b64encodeB, g0, g1, g2, b64char_b64val hv0,
              b64char_b64val hv1, b64char_b64val hv2]
          · rw [if_neg hp] at h
            exact absurd h (by simp)
        · rw [if_neg hre] at h
          exact absurd h (by simp)
      · rw [if_neg hc3] at h
        cases hv0 : b64val c0 <;> rw [hv0] at h
        next => exact absurd h (by simp)
        next s0 =>
        cases hv1 : b64val c1 <;> rw [hv1] at h
        next => exact absurd h (by simp)
        next s1 =>
        cases hv2 : b64val c2 <;> rw [hv2] at h
        next => exact absurd h (by simp)
        next s2 =>
        cases hv3 : b64val c3 <;> rw [hv3] at h
        next => exact absurd h (by simp)
        next s3 =>
        cases hv4 : b64decodeB rest <;> rw [hv4] at h
        next => exact absurd h (by simp)
        next bs4 =>
        have ih := b64encodeB_of_decodeB rest bs4 hv4
        have hs0 := b64val_lt hv0
        have hs1 := b64val_lt hv1
        have hs2 := b64val_lt hv2
        have hs3 := b64val_lt hv3
        simp only [Option.some.injEq] at h
        rw [← h]
        have g0 : (s0 * 4 + s1 / 16) / 4 = s0 := by omega
        have g1 : (s0 * 4 + s1 / 16) % 4 * 16 + (s1 % 16 * 16 + s2 / 4) / 16
            = s1 := by omega
        have g2 : (s1 % 16 * 16 + s2 / 4) % 16 * 4 + (s2 % 4 * 64 + s3) / 64
            = s2 := by omega
        have g3 : (s2 % 4 * 64 + s3) % 64 = s3 := by omega
        simp only [b64encodeB, g0, g1, g2, g3, b64char_b64val hv0,
          b64char_b64val hv1, b64char_b64val hv2, b64char_b64val hv3, ih]

/-- Base64 encoding of a byte list, as text. -/
def b64encode (bs : Bytes) : String := String.mk (b64encodeB bs)

/-- Strict base64 decoding of text back to a byte list. -/
def b64decode (s : String) : Option Bytes := b64decodeB s.data

theorem b64decode_b64encode {bs : Bytes} (h : ByteOk bs) :
    b64decode (b64encode bs) = some bs := by
  unfold b64decode b64encode
  exact b64decodeB_b64encodeB bs h

theorem b64encode_of_decode {s : String} {bs : Bytes}
    (h : b64decode s = some bs) : b64encode bs = s := by
  unfold b64decode at h
  unfold b64encode
  exact String.ext (b64encodeB_of_decodeB s.data bs h)

theorem b64encode_inj {a b : Bytes} (ha : ByteOk a) (hb : ByteOk b)
    (h : b64encode a = b64encode b) : a = b := by
  have h1 := b64decode_b64encode ha
  have h2 := b64decode_b64encode hb
  rw [h, h2] at h1
  exact (Option.some.inj h1).symm

theorem b64encode_ne_empty {bs : Bytes} (h : bs ≠ []) : b64encode bs ≠ "" := by
  intro he
  unfold b64encode at he
  have : b64encodeB bs = [] := congrArg String.data he
  cases bs with
  | nil => exact h rfl
  | cons a t =>
    cases t with
    | nil => simp [b64encodeB] at this
    | cons b t2 =>
      cases t2 with
      | nil => simp [b64encodeB] at this
      | cons c t3 => simp [b64encodeB] at this

/-! ### Error taxonomy and result structure -/

/-- The spec's closed error taxonomy: `EncryptionError`, `DecryptionError`
and `InitializationError`. -/
inductive BVaultError where
  | encryptionError : BVaultError
  | decryptionError : BVaultError
  | initializationError : BVaultError
deriving DecidableEq

/-- The externally visible result of `encrypt`: three base64 text fields,
with the nonce under the documented field name `iv`. -/
structure EncryptionResult where
  encryptedData : String
  iv : String
  salt : String
deriving DecidableEq

/-! ### Key derivation and AEAD capability models -/

/-- Modelled from the spec: PBKDF2-SHA256 key derivation (the platform
primitive is an external capability).  The spec requires `derive` to be
deterministic in (password, salt) and, as an ideal key-derivation
function, distinct (password, salt) pairs yield distinct keys; the model
realizes this with a self-delimiting injective concatenation.  The
iteration count (100,000) and key length (256 bits) are fixed
configuration shared by both ends and never vary, so they are not inputs
of the model. -/
def derive (password : String) (salt : Bytes) : Bytes :=
  unaryLp (strBytes password) ++ salt

theorem derive_inj {p q : String} {s t : Bytes}
    (h : derive p s = derive q t) : p = q ∧ s = t := by
  unfold derive at h
  obtain ⟨h1, h2⟩ := unaryLp_append_inj h
  exact ⟨strBytes_inj h1, h2⟩

theorem byteOk_derive {p : String} {s : Bytes} (hs : ByteOk s) :
    ByteOk (derive p s) :=
  byteOk_append (byteOk_unaryLp (byteOk_strBytes p)) hs

/-- Boolean test that `pat` is an initial segment of `l`. -/
def leadsWith {α : Type} [DecidableEq α] : List α → List α → Bool
  | [], _ => true
  | _ :: _, [] => false
  | p :: ps, x :: xs => if p = x then leadsWith ps xs else false

theorem leadsWith_append {α : Type} [DecidableEq α] (p t : List α) :
    leadsWith p (p ++ t) = true := by
  induction p with
  | nil => rfl
  | cons a ps ih => simp [leadsWith, ih]

theorem exists_of_leadsWith {α : Type} [DecidableEq α] :
    ∀ p l : List α, leadsWith p l = true → ∃ t, l = p ++ t
  | [], l, _ => ⟨l, rfl⟩
  | a :: ps, [], h => by simp [leadsWith] at h
  | a :: ps, x :: xs, h => by
    unfold leadsWith at h
    by_cases hax : a = x
    · rw [if_pos hax] at h
      obtain ⟨t, ht⟩ := exists_of_leadsWith ps xs h
      exact ⟨t, by simp [hax, ht]⟩
    · rw [if_neg hax] at h
      exact absurd h (by simp)

/-- Modelled from the spec: the AEAD `seal` capability (AES-256-GCM).
The spec's `open` contract is that the single authenticated primitive
recovers the plaintext exactly when key, nonce and ciphertext are the
ones produced by `seal`; the model realizes this ideal cipher by making
the ciphertext the self-delimited (key, nonce, plaintext) record.
Confidentiality is not modelled (no claim concerns it). -/
def aeadSeal (key nonce pt : Bytes) : Bytes :=
  unaryLp key ++ unaryLp nonce ++ pt

/-- Modelled from the spec: the AEAD `open` capability; fails (tag
mismatch) rather than returning partial plaintext. -/
def aeadOpen (key nonce data : Bytes) : Option Bytes :=
  if leadsWith (unaryLp key ++ unaryLp nonce) data then
    some (data.drop (unaryLp key ++ unaryLp nonce).length)
  else none

theorem aeadOpen_seal (key nonce pt : Bytes) :
    aeadOpen key nonce (aeadSeal key nonce pt) = some pt := by
  unfold aeadOpen aeadSeal
  rw [if_pos (leadsWith_append (unaryLp key ++ unaryLp nonce) pt),
    List.drop_left]

theorem aeadOpen_some {key' nonce' key nonce pt x : Bytes}
    (h : aeadOpen key' nonce' (aeadSeal key nonce pt) = some x) :
    key' = key ∧ nonce' = nonce ∧ x = pt := by
  unfold aeadOpen aeadSeal at h
  by_cases hp : leadsWith (unaryLp key' ++ unaryLp nonce')
      (unaryLp key ++ unaryLp nonce ++ pt) = true
  · obtain ⟨t, ht0⟩ := exists_of_leadsWith _ _ hp
    have ht2 : unaryLp key ++ (unaryLp nonce ++ pt)
        = unaryLp key' ++ (unaryLp nonce' ++ t) := by
      simpa [List.append_assoc] using ht0
    obtain ⟨hk, h2⟩ := unaryLp_append_inj ht2
    obtain ⟨hn, h3⟩ := unaryLp_append_inj h2
    rw [if_pos hp] at h
    have hx := Option.some.inj h
    rw [ht0, List.drop_left] at hx
    exact ⟨hk.symm, hn.symm, by rw [← hx, ← h3]⟩
  · rw [if_neg hp] at h
    exact absurd h (by simp)

theorem byteOk_aeadSeal {key nonce pt : Bytes}
    (hk : ByteOk key) (hn : ByteOk nonce) (hp : ByteOk pt) :
    ByteOk (aeadSeal key nonce pt) :=
  byteOk_append (byteOk_append (byteOk_unaryLp hk) (byteOk_unaryLp hn)) hp

theorem aeadSeal_ne_nil (key nonce pt : Bytes) : aeadSeal key nonce pt ≠ [] := by
  unfold aeadSeal
  intro h
  have h1 := List.append_eq_nil.mp h
  have h2 := List.append_eq_nil.mp h1.1
  exact unaryLp_ne_nil key h2.1

/-! ### Crypto facade -/

/-- One draw from the external cryptographically secure random source:
the fresh salt and fresh IV (nonce) bytes consumed by one `encrypt`
call. -/
structure EntropyDraw where
  saltBytes : Bytes
  ivBytes : Bytes
deriving DecidableEq

/-- The documented shape of a draw: 16 salt bytes and 12 IV bytes, each a
real byte. -/
def wellDrawn (d : EntropyDraw) : Prop :=
  d.saltBytes.length = 16 ∧ d.ivBytes.length = 12 ∧
    ByteOk d.saltBytes ∧ ByteOk d.ivBytes

instance (d : EntropyDraw) : Decidable (wellDrawn d) := by
  unfold wellDrawn; infer_instance

/-- Modelled from the spec: `encrypt(data, password)`.  Generates salt
and IV from the entropy draw, derives the key, seals the UTF-8 plaintext
with the AEAD and base64-encodes the three outputs.  Wraps the
key-derivation failure on an empty password into `EncryptionError` and
never partially populates the result. -/
def encrypt (data password : String) (d : EntropyDraw) :
    Except BVaultError EncryptionResult :=
  if password = "" then .error .encryptionError
  else
    .ok { encryptedData :=
            b64encode (aeadSeal (derive password d.saltBytes) d.ivBytes
              (strBytes data)),
          iv := b64encode d.ivBytes,
          salt := b64encode d.saltBytes }

/-- Modelled from the spec: `decrypt(encryptedData, password, iv, salt)`.
Decodes the three base64 inputs (failing with `DecryptionError` on
malformed encoding or wrong salt/IV lengths), re-derives the key, opens
the AEAD (failing with the same undifferentiated `DecryptionError` on any
authentication failure) and decodes the plaintext bytes as text. -/
def decrypt (encryptedData password iv salt : String) :
    Except BVaultError String :=
  match b64decode encryptedData, b64decode iv, b64decode salt with
  | some ctb, some ivb, some saltb =>
    if saltb.length = 16 ∧ ivb.length = 12 then
      if password = "" then .error .decryptionError
      else
        match aeadOpen (derive password saltb) ivb ctb with
        | some ptb =>
          match bytesToStr ptb with
          | some pt => .ok pt
          | none => .error .decryptionError
        | none => .error .decryptionError
    else .error .decryptionError
  | _, _, _ => .error .decryptionError

theorem encrypt_eq_ok {data password : String} {d : EntropyDraw}
    {e : EncryptionResult} (h : encrypt data password d = .ok e) :
    password ≠ "" ∧
      e.encryptedData = b64encode (aeadSeal (derive password d.saltBytes)
        d.ivBytes (strBytes data)) ∧
      e.iv = b64encode d.ivBytes ∧ e.salt = b64encode d.saltBytes := by
  unfold encrypt at h
  by_cases hp : password = ""
  · rw [if_pos hp] at h
    exact absurd h (by simp)
  · rw [if_neg hp] at h
    obtain rfl := Except.ok.inj h
    exact ⟨hp, rfl, rfl, rfl⟩

/-- Core round trip: decrypting an encryption result with the original
password and parameters recovers the plaintext. -/
theorem decrypt_encrypt {data password : String} {d : EntropyDraw}
    {e : EncryptionResult} (hd : wellDrawn d)
    (he : encrypt data password d = .ok e) :
    decrypt e.encryptedData password e.iv e.salt = .ok data := by
  obtain ⟨hp, hed, hiv, hsalt⟩ := encrypt_eq_ok he
  obtain ⟨hsl, hil, hsok, hiok⟩ := hd
  have hkey : ByteOk (derive password d.saltBytes) := byteOk_derive hsok
  have hct : ByteOk (aeadSeal (derive password d.saltBytes) d.ivBytes
      (strBytes data)) := byteOk_aeadSeal hkey hiok (byteOk_strBytes data)
  unfold decrypt
  rw [hed, hiv, hsalt, b64decode_b64encode hct, b64decode_b64encode hiok,
    b64decode_b64encode hsok]
  simp [hp, hsl, hil, aeadOpen_seal, bytesToStr_strBytes]

/-- Decrypting an authentic result with any other password fails with the
undifferentiated `DecryptionError`. -/
theorem decrypt_wrong_password {data password password' : String}
    {d : EntropyDraw} {e : EncryptionResult} (hd : wellDrawn d)
    (he : encrypt data password d = .ok e) (hW : password' ≠ password) :
    decrypt e.encryptedData password' e.iv e.salt
      = .error .decryptionError := by
  obtain ⟨hp, hed, hiv, hsalt⟩ := encrypt_eq_ok he
  obtain ⟨hsl, hil, hsok, hiok⟩ := hd
  have hkey : ByteOk (derive password d.saltBytes) := byteOk_derive hsok
  have hct : ByteOk (aeadSeal (derive password d.saltBytes) d.ivBytes
      (strBytes data)) := byteOk_aeadSeal hkey hiok (byteOk_strBytes data)
  unfold decrypt
  rw [hed, hiv, hsalt, b64decode_b64encode hct, b64decode_b64encode hiok,
    b64decode_b64encode hsok]
  by_cases hWe : password' = ""
  · simp [hWe, hsl, hil]
  · have hopen : aeadOpen (derive password' d.saltBytes) d.ivBytes
        (aeadSeal (derive password d.saltBytes) d.ivBytes (strBytes data))
        = none := by
      cases hq : aeadOpen (derive password' d.saltBytes) d.ivBytes
          (aeadSeal (derive password d.saltBytes) d.ivBytes (strBytes data)) with
      | none => rfl
      | some x =>
        obtain ⟨hk, _, _⟩ := aeadOpen_some hq
        exact absurd (derive_inj hk).1 hW
    simp [hWe, hsl, hil, hopen]

/-- Tampering with the IV or the salt of an authentic result (leaving the
ciphertext unchanged) always fails with `DecryptionError`. -/
theorem decrypt_tampered_iv_salt {data password iv' salt' : String}
    {d : EntropyDraw} {e : EncryptionResult} (hd : wellDrawn d)
    (he : encrypt data password d = .ok e)
    (hne : ¬(iv' = e.iv ∧ salt' = e.salt)) :
    decrypt e.encryptedData password iv' salt'
      = .error .decryptionError := by
  obtain ⟨hp, hed, hiv, hsalt⟩ := encrypt_eq_ok he
  obtain ⟨hsl, hil, hsok, hiok⟩ := hd
  have hkey : ByteOk (derive password d.saltBytes) := byteOk_derive hsok
  have hct : ByteOk (aeadSeal (derive password d.saltBytes) d.ivBytes
      (strBytes data)) := byteOk_aeadSeal hkey hiok (byteOk_strBytes data)
  unfold decrypt
  rw [hed, b64decode_b64encode hct]
  cases hdiv : b64decode iv' with
  | none => simp
  | some ivb =>
    cases hdsalt : b64decode salt' with
    | none => simp
    | some saltb =>
      by_cases hlen : saltb.length = 16 ∧ ivb.length = 12
      · have hopen : aeadOpen (derive password saltb) ivb
            (aeadSeal (derive password d.saltBytes) d.ivBytes (strBytes data))
            = none := by
          cases hq : aeadOpen (derive password saltb) ivb
              (aeadSeal (derive password d.saltBytes) d.ivBytes
                (strBytes data)) with
          | none => rfl
          | some x =>
            obtain ⟨hk, hn, _⟩ := aeadOpen_some hq
            have hsb : saltb = d.saltBytes := (derive_inj hk).2
            have hsalt' : salt' = e.salt := by
              rw [hsalt, ← hsb]
              exact (b64encode_of_decode hdsalt).symm
            have hiv' : iv' = e.iv := by
              rw [hiv, ← hn]
              exact (b64encode_of_decode hdiv).symm
            exact absurd ⟨hiv', hsalt'⟩ hne
        simp [hlen.1, hlen.2, hp, hopen]
      · have : ¬(saltb.length = 16 ∧ ivb.length = 12) := hlen
        simp only []
        rw [if_neg this]

/-! ### Storage envelope

Modelled from the spec: the persisted value is the JSON serialization of
the `EncryptionResult` (fields `encryptedData`, `iv`, `salt`), produced
by the platform's JSON capability; the model writes and parses that
concrete record shape. -/

theorem toNat_ofNat_valid {n : Nat} (h : Nat.isValidChar n) :
    (Char.ofNat n).toNat = n := by
  simp only [Char.ofNat, dif_pos h]
  rfl

theorem b64char_ne_quote (n : Nat) : b64char n ≠ '"' := by
  intro h
  have h34 : ('"' : Char).toNat = 34 := rfl
  unfold b64char at h
  split_ifs at h with h1 h2 h3 h4
  · have hv : Nat.isValidChar (65 + n) := Or.inl (by omega)
    have := congrArg Char.toNat h
    rw [toNat_ofNat_valid hv, h34] at this
    omega
  · have hv : Nat.isValidChar (97 + (n - 26)) := Or.inl (by omega)
    have := congrArg Char.toNat h
    rw [toNat_ofNat_valid hv, h34] at this
    omega
  · have hv : Nat.isValidChar (48 + (n - 52)) := Or.inl (by omega)
    have := congrArg Char.toNat h
    rw [toNat_ofNat_valid hv, h34] at this
    omega
  · exact absurd h (by decide)
  · exact absurd h (by decide)

/-- A text field that contains no double quote, hence is safe inside the
JSON envelope. -/
def NoQuote (s : String) : Prop := ∀ c ∈ s.data, c ≠ '"'

theorem noQuote_b64encodeB : ∀ bs : Bytes, ∀ c ∈ b64encodeB bs, c ≠ '"'
  | [], _, hc => by simp [b64encodeB] at hc
  | [a], c, hc => by
    simp only [b64encodeB, List.mem_cons, List.not_mem_nil, or_false] at hc
    rcases hc with h | h | h | h <;> subst h
    · exact b64char_ne_quote _
    · exact b64char_ne_quote _
    · decide
    · decide
  | [a, b], c, hc => by
    simp only [b64encodeB, List.mem_cons, List.not_mem_nil, or_false] at hc
    rcases hc with h | h | h | h <;> subst h
    · exact b64char_ne_quote _
    · exact b64char_ne_quote _
    · exact b64char_ne_quote _
    · decide
  | a :: b :: cc :: rest, c, hc => by
    simp only [b64encodeB, List.mem_cons] at hc
    rcases hc with h | h | h | h | h
    · subst h; exact b64char_ne_quote _
    · subst h; exact b64char_ne_quote _
    · subst h; exact b64char_ne_quote _
    · subst h; exact b64char_ne_quote _
    · exact noQuote_b64encodeB rest c h

theorem noQuote_b64encode (bs : Bytes) : NoQuote (b64encode bs) := by
  intro c hc
  exact noQuote_b64encodeB bs c hc

/-- Splits a character stream at the first double quote, returning the
part before it and the part after it. -/
def splitAtQuote : List Char → Option (List Char × List Char)
  | [] => none
  | c :: rest =>
    if c = '"' then some ([], rest)
    else
      match splitAtQuote rest with
      | some (pre, post) => some (c :: pre, post)
      | none => none

theorem splitAtQuote_append {l rest : List Char} (h : ∀ c ∈ l, c ≠ '"') :
    splitAtQuote (l ++ '"' :: rest) = some (l, rest) := by
  induction l with
  | nil => simp [splitAtQuote]
  | cons c t ih =>
    have hc : c ≠ '"' := h c (by simp)
    have ht : ∀ x ∈ t, x ≠ '"' := fun x hx => h x (by simp [hx])
    simp only [List.cons_append, splitAtQuote, if_neg hc, List.append_eq, ih ht]

/-- Strips an expected literal from the front of a character stream. -/
def stripLit (lit l : List Char) : Option (List Char) :=
  if leadsWith lit l then some (l.drop lit.length) else none

theorem stripLit_append (lit rest : List Char) :
    stripLit lit (lit ++ rest) = some rest := by
  unfold stripLit
  rw [if_pos (leadsWith_append lit rest), List.drop_left]

/-- Modelled from the spec: the JSON text of the persisted envelope
(`\x7b"encryptedData":"...","iv":"...","salt":"..."\x7d`). -/
def envEncode (e : EncryptionResult) : String :=
  "\x7b\"encryptedData\":\"" ++ e.encryptedData ++ "\",\"iv\":\"" ++ e.iv
    ++ "\",\"salt\":\"" ++ e.salt ++ "\"\x7d"

/-- Modelled from the spec: parsing the persisted envelope JSON back into
an `EncryptionResult`; fails on any other shape. -/
def envDecode (s : String) : Option EncryptionResult :=
  match stripLit "\x7b\"encryptedData\":\"".data s.data with
  | none => none
  | some r1 =>
    match splitAtQuote r1 with
    | none => none
    | some (ed, r2) =>
      match stripLit ",\"iv\":\"".data r2 with
      | none => none
      | some r3 =>
        match splitAtQuote r3 with
        | none => none
        | some (iv, r4) =>
          match stripLit ",\"salt\":\"".data r4 with
          | none => none
          | some r5 =>
            match splitAtQuote r5 with
            | none => none
            | some (salt, r6) =>
              if r6 = ['\x7d'] then
                some ⟨String.mk ed, String.mk iv, String.mk salt⟩
              else none

theorem envDecode_envEncode {e : EncryptionResult}
    (h1 : NoQuote e.encryptedData) (h2 : NoQuote e.iv)
    (h3 : NoQuote e.salt) : envDecode (envEncode e) = some e := by
  simp [envDecode, envEncode, stripLit, leadsWith, String.data_append,
    splitAtQuote_append h1, splitAtQuote_append h2, splitAtQuote_append h3]

/-! ### SecureStore

Modelled from the spec: the key-value wrapper over the browser storage
areas.  Process-wide initialization state (the captured master password)
is shared by the durable (`secureLocalStorage`) and session-scoped
(`secureSessionStorage`) instances; each instance owns one storage area,
a list of key/value text entries with first-match lookup (the browser's
per-key assignment semantics). -/

/-- A browser storage area: key/value text entries, first match wins. -/
abbrev StorageArea := List (String × String)

def areaGet (a : StorageArea) (k : String) : Option String :=
  (a.find? (fun p => p.1 == k)).map (fun p => p.2)

def areaSet (a : StorageArea) (k v : String) : StorageArea := (k, v) :: a

def areaRemove (a : StorageArea) (k : String) : StorageArea :=
  a.filter (fun p => p.1 != k)

/-- The documented namespace tag prepended to every stored key. -/
def bvaultNS : String := "bvault_enc_"

/-- The namespaced storage key of an original key. -/
def nsKey (k : String) : String := bvaultNS ++ k

/-- Whether a storage key carries the namespace tag. -/
def nsHas (k : String) : Bool := leadsWith bvaultNS.data k.data

/-- The two SecureStore instances of the spec. -/
inductive StoreInstance where
  | localStorage
  | sessionStorage
deriving DecidableEq

/-- Modelled from the spec: the process-wide storage session plus the two
underlying storage areas.  `master = none` is the Uninitialized state. -/
structure VaultState where
  master : Option String
  localArea : StorageArea
  sessionArea : StorageArea
deriving DecidableEq

def VaultState.areaOf (st : VaultState) : StoreInstance → StorageArea
  | .localStorage => st.localArea
  | .sessionStorage => st.sessionArea

def VaultState.withArea (st : VaultState) :
    StoreInstance → StorageArea → VaultState
  | .localStorage, a => { st with localArea := a }
  | .sessionStorage, a => { st with sessionArea := a }

theorem areaOf_withArea (st : VaultState) (i : StoreInstance)
    (a : StorageArea) : (st.withArea i a).areaOf i = a := by
  cases i <;> rfl

theorem master_withArea (st : VaultState) (i : StoreInstance)
    (a : StorageArea) : (st.withArea i a).master = st.master := by
  cases i <;> rfl

/-- Modelled from the spec: `initializeSecureStorage(password)` captures
the master password for all subsequent operations. -/
def initializeSecureStorage (st : VaultState) (password : String) :
    VaultState :=
  { st with master := some password }

/-- Modelled from the spec: `isSecureStorageInitialized()`, a pure
boolean query of the session state. -/
def isSecureStorageInitialized (st : VaultState) : Bool := st.master.isSome

/-- Modelled from the spec: `setItem(key, value)`.  Requires the
initialized session; encrypts the serialized value (the platform JSON
serialization of the caller's value is external, so the model takes the
serialized text) and writes the envelope under the namespaced key.  The
entropy draw is the randomness consumed by the inner `encrypt`. -/
def setItem (st : VaultState) (i : StoreInstance) (k v : String)
    (d : EntropyDraw) : Except BVaultError VaultState :=
  match st.master with
  | none => .error .initializationError
  | some pw =>
    match encrypt v pw d with
    | .error e => .error e
    | .ok enc =>
      .ok (st.withArea i (areaSet (st.areaOf i) (nsKey k) (envEncode enc)))

/-- Modelled from the spec: `getItem(key)`.  Requires the initialized
session; reads the namespaced entry (absent is `none`, not an error),
parses the envelope and decrypts it, propagating `DecryptionError`. -/
def getItem (st : VaultState) (i : StoreInstance) (k : String) :
    Except BVaultError (Option String) :=
  match st.master with
  | none => .error .initializationError
  | some pw =>
    match areaGet (st.areaOf i) (nsKey k) with
    | none => .ok none
    | some stored =>
      match envDecode stored with
      | none => .error .decryptionError
      | some env => (decrypt env.encryptedData pw env.iv env.salt).map some

/-- Modelled from the spec: `removeItem(key)` deletes the namespaced
entry; a synchronous total operation with no initialization gate (the
documented examples call it without awaiting and without initializing),
and an absent entry is not an error. -/
def removeItem (st : VaultState) (i : StoreInstance) (k : String) :
    VaultState :=
  st.withArea i (areaRemove (st.areaOf i) (nsKey k))

/-- Modelled from the spec: `clear()` deletes exactly the entries whose
keys carry the namespace tag; synchronous, total, not gated on
initialization. -/
def clear (st : VaultState) (i : StoreInstance) : VaultState :=
  st.withArea i ((st.areaOf i).filter (fun p => !(nsHas p.1)))

theorem areaGet_areaSet_self (a : StorageArea) (k v : String) :
    areaGet (areaSet a k v) k = some v := by
  unfold areaGet areaSet
  rw [List.find?_cons_of_pos _ (by simp)]
  rfl

theorem areaGet_areaSet_other (a : StorageArea) {k k' : String} (v : String)
    (h : k' ≠ k) : areaGet (areaSet a k v) k' = areaGet a k' := by
  unfold areaGet areaSet
  rw [List.find?_cons_of_neg _ (by simpa using fun he => h he.symm)]

theorem areaGet_areaRemove_self (a : StorageArea) (k : String) :
    areaGet (areaRemove a k) k = none := by
  induction a with
  | nil => rfl
  | cons p t ih =>
    unfold areaRemove at ih ⊢
    rw [List.filter_cons]
    by_cases hk : p.1 = k
    · rw [if_neg (by simp [hk])]
      exact ih
    · rw [if_pos (by simpa using hk)]
      unfold areaGet
      rw [List.find?_cons_of_neg _ (by simpa using hk)]
      exact ih

theorem areaGet_clear_of_ns {a : StorageArea} {k : String}
    (h : nsHas k = true) :
    areaGet (a.filter (fun p => !(nsHas p.1))) k = none := by
  induction a with
  | nil => rfl
  | cons p t ih =>
    rw [List.filter_cons]
    by_cases hp : nsHas p.1
    · rw [if_neg (by simp [hp])]
      exact ih
    · rw [if_pos (by simpa using hp)]
      have hne : p.1 ≠ k := by
        intro he
        rw [he, h] at hp
        exact hp rfl
      unfold areaGet
      rw [List.find?_cons_of_neg _ (by simpa using hne)]
      exact ih

theorem areaGet_clear_of_not_ns {a : StorageArea} {k : String}
    (h : nsHas k = false) :
    areaGet (a.filter (fun p => !(nsHas p.1))) k = areaGet a k := by
  induction a with
  | nil => rfl
  | cons p t ih =>
    rw [List.filter_cons]
    by_cases hpk : p.1 = k
    · rw [if_pos (by simp [hpk, h])]
      unfold areaGet
      rw [List.find?_cons_of_pos _ (by simp [hpk]),
        List.find?_cons_of_pos _ (by simp [hpk])]
    · by_cases hp : nsHas p.1
      · rw [if_neg (by simp [hp])]
        rw [ih]
        unfold areaGet
        rw [List.find?_cons_of_neg _ (by simpa using hpk)]
      · rw [if_pos (by simpa using hp)]
        unfold areaGet
        rw [List.find?_cons_of_neg _ (by simpa using hpk),
          List.find?_cons_of_neg _ (by simpa using hpk)]
        exact ih

theorem nsHas_nsKey (k : String) : nsHas (nsKey k) = true := by
  unfold nsHas nsKey
  rw [String.data_append]
  exact leadsWith_append _ _

/-! ### Concrete data for witnesses and counterexamples -/

/-- A concrete well-formed entropy draw (16 salt bytes, 12 IV bytes). -/
def demoDraw : EntropyDraw := ⟨List.replicate 16 7, List.replicate 12 3⟩

/-- A second concrete draw with different salt and IV bytes. -/
def demoDraw2 : EntropyDraw := ⟨List.replicate 16 9, List.replicate 12 5⟩

/-- The authentic ciphertext field of `encrypt "A" "pw" demoDraw`. -/
def realCt : String :=
  b64encode (aeadSeal (derive "pw" demoDraw.saltBytes) demoDraw.ivBytes
    (strBytes "A"))

/-- The same ciphertext with its final base64 character changed from
`B` to `C` — a single-bit change of the text, since the character codes
66 and 67 differ exactly in the lowest bit.  It equals the sealing of
plaintext `"B"` under the same key and nonce. -/
def forgedCt : String :=
  b64encode (aeadSeal (derive "pw" demoDraw.saltBytes) demoDraw.ivBytes
    (strBytes "B"))

/-! ### The claims -/

/-- C1: for every plaintext string P and every non-empty password W, if
`encrypt(P, W)` returns a result r, then
`decrypt(r.encryptedData, W, r.iv, r.salt)` succeeds and returns exactly
P.  (The entropy draw is the fresh randomness consumed by the call; the
documented shape of the draw is a hypothesis.) -/
theorem C1_encrypt_decrypt_round_trip (P W : String) (d : EntropyDraw)
    (r : EncryptionResult) (hW : W ≠ "") (hd : wellDrawn d)
    (hr : encrypt P W d = .ok r) :
    decrypt r.encryptedData W r.iv r.salt = .ok P :=
  decrypt_encrypt hd hr

/-- Witness for C1 at the documentation's own verification example:
plaintext `"test data"`, password `"password"`. -/
theorem C1_round_trip_witness :
    ("password" : String) ≠ "" ∧ wellDrawn demoDraw ∧
    decrypt (b64encode (aeadSeal (derive "password" demoDraw.saltBytes)
        demoDraw.ivBytes (strBytes "test data"))) "password"
      (b64encode demoDraw.ivBytes) (b64encode demoDraw.saltBytes)
      = .ok "test data" :=
  ⟨by decide, by decide,
    C1_encrypt_decrypt_round_trip "test data" "password" demoDraw
      ⟨b64encode (aeadSeal (derive "password" demoDraw.saltBytes)
          demoDraw.ivBytes (strBytes "test data")),
        b64encode demoDraw.ivBytes, b64encode demoDraw.saltBytes⟩
      (by decide) (by decide) (by decide)⟩

/-- C2 counterexample: the claim "decrypting a version of r in which at
least one bit of r.encryptedData, r.iv, or r.salt has been flipped fails
with DecryptionError and never returns normally with a plaintext
different from P" is false as a universal statement.  For
`r = encrypt "A" "pw" demoDraw`, the string `forgedCt` is `r.encryptedData`
with exactly one character changed from `B` (code 66) to `C` (code 67) —
a single flipped bit of the base64 text — yet
`decrypt(forgedCt, "pw", r.iv, r.salt)` returns `"B"`, a plaintext
different from `"A"`, instead of failing.  (The flipped ciphertext is a
valid sealing of `"B"` under the same password-derived key: authenticated
encryption rejects forgeries only computationally, so no computable model
can satisfy the claim for arbitrary tampering of the ciphertext.) -/
theorem C2_bit_flip_counterexample :
    encrypt "A" "pw" demoDraw
      = .ok ⟨realCt, b64encode demoDraw.ivBytes,
          b64encode demoDraw.saltBytes⟩ ∧
    forgedCt.data.length = realCt.data.length ∧
    (List.zip realCt.data forgedCt.data).filter (fun p => p.1 != p.2)
      = [('B', 'C')] ∧
    forgedCt ≠ realCt ∧
    decrypt forgedCt "pw" (b64encode demoDraw.ivBytes)
      (b64encode demoDraw.saltBytes) = .ok "B" ∧
    ("B" : String) ≠ "A" := by
  refine ⟨by decide, by decide, by decide, by decide, by decide, by decide⟩

/-- C2 (amended): flipping bits of `r.iv` or `r.salt` while leaving
`r.encryptedData` unchanged — indeed replacing the IV and salt by any
pair of strings other than the authentic one — always fails with
`DecryptionError` and never returns a plaintext.  (The original claim
also allowed flips inside `r.encryptedData`; the counterexample shows a
flipped ciphertext can itself be a valid sealing under the
password-derived key, so that part holds only computationally and is
dropped.) -/
theorem C2_tamper_iv_salt_rejected (P W iv' salt' : String)
    (d : EntropyDraw) (r : EncryptionResult) (hd : wellDrawn d)
    (hr : encrypt P W d = .ok r) (hne : ¬(iv' = r.iv ∧ salt' = r.salt)) :
    decrypt r.encryptedData W iv' salt' = .error .decryptionError :=
  decrypt_tampered_iv_salt hd hr hne

/-- Witness for the amended C2: a tampered IV (byte 4 in place of 3) is
rejected. -/
theorem C2_tamper_witness :
    wellDrawn demoDraw ∧
    ¬((b64encode (List.replicate 12 4) : String) = b64encode demoDraw.ivBytes
        ∧ (b64encode demoDraw.saltBytes : String)
            = b64encode demoDraw.saltBytes) ∧
    decrypt realCt "pw" (b64encode (List.replicate 12 4))
      (b64encode demoDraw.saltBytes) = .error .decryptionError :=
  ⟨by decide, by decide,
    C2_tamper_iv_salt_rejected "A" "pw" (b64encode (List.replicate 12 4))
      (b64encode demoDraw.saltBytes) demoDraw
      ⟨realCt, b64encode demoDraw.ivBytes, b64encode demoDraw.saltBytes⟩
      (by decide) (by decide) (by decide)⟩

/-- C3: decrypting a valid encryption result with any password different
from the original fails with `DecryptionError` rather than returning any
plaintext. -/
theorem C3_wrong_password_rejected (P W W' : String) (d : EntropyDraw)
    (r : EncryptionResult) (hd : wellDrawn d) (hr : encrypt P W d = .ok r)
    (hW : W' ≠ W) :
    decrypt r.encryptedData W' r.iv r.salt = .error .decryptionError :=
  decrypt_wrong_password hd hr hW

/-- Witness for C3: the documentation's wrong-password scenario. -/
theorem C3_wrong_password_witness :
    wellDrawn demoDraw ∧ ("wrong-password" : String) ≠ "password" ∧
    decrypt (b64encode (aeadSeal (derive "password" demoDraw.saltBytes)
        demoDraw.ivBytes (strBytes "secret"))) "wrong-password"
      (b64encode demoDraw.ivBytes) (b64encode demoDraw.saltBytes)
      = .error .decryptionError :=
  ⟨by decide, by decide,
    C3_wrong_password_rejected "secret" "password" "wrong-password" demoDraw
      ⟨b64encode (aeadSeal (derive "password" demoDraw.saltBytes)
          demoDraw.ivBytes (strBytes "secret")),
        b64encode demoDraw.ivBytes, b64encode demoDraw.saltBytes⟩
      (by decide) (by decide) (by decide)⟩

/-- C4 counterexample: the claim "every SecureStore operation (setItem,
getItem, removeItem, clear ...) invoked before initialization fails with
InitializationError" is false for `removeItem` and `clear`: on an
uninitialized store they complete normally (they are total functions into
`VaultState`, with no error outcome) and actually delete their entries,
as this concrete evaluation shows. -/
theorem C4_ungated_ops_counterexample :
    removeItem ⟨none, [(nsKey "k", "x")], []⟩ .localStorage "k"
      = ⟨none, [], []⟩ ∧
    clear ⟨none, [(nsKey "k", "x")], [(nsKey "j", "y")]⟩ .sessionStorage
      = ⟨none, [(nsKey "k", "x")], []⟩ ∧
    isSecureStorageInitialized ⟨none, [(nsKey "k", "x")], []⟩ = false := by
  refine ⟨by decide, by decide, by decide⟩

/-- C4 (amended): `setItem` and `getItem` invoked before initialization
fail with `InitializationError` (`removeItem` and `clear` are not
initialization-gated), and `isSecureStorageInitialized` is a pure
boolean query of the state — it returns false before initialization and
true after `initializeSecureStorage` has run. -/
theorem C4_initialization_gating :
    (∀ (st : VaultState) (i : StoreInstance) (k v : String)
        (d : EntropyDraw), st.master = none →
        setItem st i k v d = .error .initializationError) ∧
    (∀ (st : VaultState) (i : StoreInstance) (k : String),
        st.master = none →
        getItem st i k = .error .initializationError) ∧
    (∀ st : VaultState, st.master = none →
        isSecureStorageInitialized st = false) ∧
    (∀ (st : VaultState) (pw : String),
        isSecureStorageInitialized (initializeSecureStorage st pw) = true) := by
  refine ⟨?_, ?_, ?_, ?_⟩
  · intro st i k v d hm
    simp [setItem, hm]
  · intro st i k hm
    simp [getItem, hm]
  · intro st hm
    simp [isSecureStorageInitialized, hm]
  · intro st pw
    simp [isSecureStorageInitialized, initializeSecureStorage]

/-- Witness for the amended C4 on the empty uninitialized store. -/
theorem C4_initialization_gating_witness :
    setItem ⟨none, [], []⟩ .localStorage "k" "v" demoDraw
      = .error .initializationError ∧
    getItem ⟨none, [], []⟩ .sessionStorage "k"
      = .error .initializationError ∧
    isSecureStorageInitialized ⟨none, [], []⟩ = false ∧
    isSecureStorageInitialized (initializeSecureStorage ⟨none, [], []⟩ "pw")
      = true :=
  ⟨C4_initialization_gating.1 ⟨none, [], []⟩ .localStorage "k" "v" demoDraw
      rfl,
    C4_initialization_gating.2.1 ⟨none, [], []⟩ .sessionStorage "k" rfl,
    C4_initialization_gating.2.2.1 ⟨none, [], []⟩ rfl,
    C4_initialization_gating.2.2.2 ⟨none, [], []⟩ "pw"⟩

/-- C5: after initialization with password pw, `setItem(k, v)` followed by
`getItem(k)` returns exactly the stored serialization v.  (The platform
JSON serialization of the caller's value is an external capability, so v
here is the value's JSON serialization text; JSON-parsing the returned
text therefore yields the original value.) -/
theorem C5_store_round_trip (st : VaultState) (i : StoreInstance)
    (pw k v : String) (d : EntropyDraw) (hm : st.master = some pw)
    (hpw : pw ≠ "") (hd : wellDrawn d) :
    ∃ st', setItem st i k v d = .ok st' ∧ getItem st' i k = .ok (some v) := by
  have hr : encrypt v pw d
      = .ok ⟨b64encode (aeadSeal (derive pw d.saltBytes) d.ivBytes
          (strBytes v)),
        b64encode d.ivBytes, b64encode d.saltBytes⟩ := by
    unfold encrypt
    rw [if_neg hpw]
  refine ⟨st.withArea i (areaSet (st.areaOf i) (nsKey k)
      (envEncode ⟨b64encode (aeadSeal (derive pw d.saltBytes) d.ivBytes
          (strBytes v)),
        b64encode d.ivBytes, b64encode d.saltBytes⟩)), ?_, ?_⟩
  · simp [setItem, hm, hr]
  · have henv := @envDecode_envEncode
      ⟨b64encode (aeadSeal (derive pw d.saltBytes) d.ivBytes (strBytes v)),
        b64encode d.ivBytes, b64encode d.saltBytes⟩
      (noQuote_b64encode _) (noQuote_b64encode _) (noQuote_b64encode _)
    simp [getItem, master_withArea, hm, areaOf_withArea,
      areaGet_areaSet_self, henv, decrypt_encrypt hd hr, Except.map]

/-- Witness for C5 on a concrete initialized store. -/
theorem C5_store_round_trip_witness :
    (⟨some "pw", [], []⟩ : VaultState).master = some "pw" ∧
    ("pw" : String) ≠ "" ∧ wellDrawn demoDraw ∧
    ∃ st', setItem ⟨some "pw", [], []⟩ .localStorage "userData" "v" demoDraw
        = .ok st' ∧
      getItem st' .localStorage "userData" = .ok (some "v") :=
  ⟨rfl, by decide, by decide,
    C5_store_round_trip ⟨some "pw", [], []⟩ .localStorage "pw" "userData"
      "v" demoDraw rfl (by decide) (by decide)⟩

/-- C6: two `encrypt` calls on the same plaintext and password, each
drawing fresh random bytes (formally: draws whose salt bytes differ and
whose IV bytes differ, which is what a secure random source yields except
with negligible probability), produce different salt fields, different iv
fields and different encryptedData fields. -/
theorem C6_fresh_randomness_uniqueness (P W : String) (d1 d2 : EntropyDraw)
    (r1 r2 : EncryptionResult) (hd1 : wellDrawn d1) (hd2 : wellDrawn d2)
    (hsalt : d1.saltBytes ≠ d2.saltBytes) (hiv : d1.ivBytes ≠ d2.ivBytes)
    (h1 : encrypt P W d1 = .ok r1) (h2 : encrypt P W d2 = .ok r2) :
    r1.salt ≠ r2.salt ∧ r1.iv ≠ r2.iv ∧
      r1.encryptedData ≠ r2.encryptedData := by
  obtain ⟨hp1, he1, hi1, hs1⟩ := encrypt_eq_ok h1
  obtain ⟨hp2, he2, hi2, hs2⟩ := encrypt_eq_ok h2
  obtain ⟨hl1, hil1, hso1, hio1⟩ := hd1
  obtain ⟨hl2, hil2, hso2, hio2⟩ := hd2
  refine ⟨?_, ?_, ?_⟩
  · rw [hs1, hs2]
    intro h
    exact hsalt (b64encode_inj hso1 hso2 h)
  · rw [hi1, hi2]
    intro h
    exact hiv (b64encode_inj hio1 hio2 h)
  · rw [he1, he2]
    intro h
    have hok1 : ByteOk (aeadSeal (derive W d1.saltBytes) d1.ivBytes
        (strBytes P)) :=
      byteOk_aeadSeal (byteOk_derive hso1) hio1 (byteOk_strBytes P)
    have hok2 : ByteOk (aeadSeal (derive W d2.saltBytes) d2.ivBytes
        (strBytes P)) :=
      byteOk_aeadSeal (byteOk_derive hso2) hio2 (byteOk_strBytes P)
    have hct := b64encode_inj hok1 hok2 h
    unfold aeadSeal at hct
    have hct2 : unaryLp (derive W d1.saltBytes)
          ++ (unaryLp d1.ivBytes ++ strBytes P)
        = unaryLp (derive W d2.saltBytes)
          ++ (unaryLp d2.ivBytes ++ strBytes P) := by
      simpa [List.append_assoc] using hct
    obtain ⟨hk, hrest⟩ := unaryLp_append_inj hct2
    obtain ⟨hn, _⟩ := unaryLp_append_inj hrest
    exact hiv hn

/-- Witness for C6 on two concrete distinct draws. -/
theorem C6_uniqueness_witness :
    wellDrawn demoDraw ∧ wellDrawn demoDraw2 ∧
    demoDraw.saltBytes ≠ demoDraw2.saltBytes ∧
    demoDraw.ivBytes ≠ demoDraw2.ivBytes ∧
    ((b64encode demoDraw.saltBytes : String) ≠ b64encode demoDraw2.saltBytes ∧
      (b64encode demoDraw.ivBytes : String) ≠ b64encode demoDraw2.ivBytes ∧
      (b64encode (aeadSeal (derive "pw" demoDraw.saltBytes) demoDraw.ivBytes
          (strBytes "hello")) : String)
        ≠ b64encode (aeadSeal (derive "pw" demoDraw2.saltBytes)
            demoDraw2.ivBytes (strBytes "hello"))) :=
  ⟨by decide, by decide, by decide, by decide,
    C6_fresh_randomness_uniqueness "hello" "pw" demoDraw demoDraw2
      ⟨b64encode (aeadSeal (derive "pw" demoDraw.saltBytes) demoDraw.ivBytes
          (strBytes "hello")),
        b64encode demoDraw.ivBytes, b64encode demoDraw.saltBytes⟩
      ⟨b64encode (aeadSeal (derive "pw" demoDraw2.saltBytes)
          demoDraw2.ivBytes (strBytes "hello")),
        b64encode demoDraw2.ivBytes, b64encode demoDraw2.saltBytes⟩
      (by decide) (by decide) (by decide) (by decide) (by decide)
      (by decide)⟩

/-- C7: every result of `encrypt` has three non-empty base64 text fields,
and the decoded byte lengths are exactly 16 for the salt and 12 for the
iv, the documented salt and nonce lengths. -/
theorem C7_result_field_shapes (P W : String) (d : EntropyDraw)
    (r : EncryptionResult) (hd : wellDrawn d) (hr : encrypt P W d = .ok r) :
    r.encryptedData ≠ "" ∧ r.iv ≠ "" ∧ r.salt ≠ "" ∧
    (∃ cb, b64decode r.encryptedData = some cb) ∧
    (∃ ib, b64decode r.iv = some ib ∧ ib.length = 12) ∧
    (∃ sb, b64decode r.salt = some sb ∧ sb.length = 16) := by
  obtain ⟨hp, hed, hiv, hsalt⟩ := encrypt_eq_ok hr
  obtain ⟨hsl, hil, hsok, hiok⟩ := hd
  have hkey : ByteOk (derive W d.saltBytes) := byteOk_derive hsok
  have hct : ByteOk (aeadSeal (derive W d.saltBytes) d.ivBytes
      (strBytes P)) := byteOk_aeadSeal hkey hiok (byteOk_strBytes P)
  refine ⟨?_, ?_, ?_, ?_, ?_, ?_⟩
  · rw [hed]
    exact b64encode_ne_empty (aeadSeal_ne_nil _ _ _)
  · rw [hiv]
    refine b64encode_ne_empty ?_
    intro h
    rw [h] at hil
    simp at hil
  · rw [hsalt]
    refine b64encode_ne_empty ?_
    intro h
    rw [h] at hsl
    simp at hsl
  · refine ⟨aeadSeal (derive W d.saltBytes) d.ivBytes (strBytes P), ?_⟩
    rw [hed]
    exact b64decode_b64encode hct
  · refine ⟨d.ivBytes, ?_, hil⟩
    rw [hiv]
    exact b64decode_b64encode hiok
  · refine ⟨d.saltBytes, ?_, hsl⟩
    rw [hsalt]
    exact b64decode_b64encode hsok

/-- Witness for C7 at the documented concrete scenario
`encrypt("hello world", "pw12345")`. -/
theorem C7_result_field_shapes_witness :
    wellDrawn demoDraw ∧
    ((b64encode (aeadSeal (derive "pw12345" demoDraw.saltBytes)
        demoDraw.ivBytes (strBytes "hello world")) : String) ≠ "" ∧
      (b64encode demoDraw.ivBytes : String) ≠ "" ∧
      (b64encode demoDraw.saltBytes : String) ≠ "" ∧
      (∃ cb, b64decode (b64encode (aeadSeal (derive "pw12345"
          demoDraw.saltBytes) demoDraw.ivBytes (strBytes "hello world")))
          = some cb) ∧
      (∃ ib, b64decode (b64encode demoDraw.ivBytes) = some ib ∧
          ib.length = 12) ∧
      (∃ sb, b64decode (b64encode demoDraw.saltBytes) = some sb ∧
          sb.length = 16)) :=
  ⟨by decide,
    C7_result_field_shapes "hello world" "pw12345" demoDraw
      ⟨b64encode (aeadSeal (derive "pw12345" demoDraw.saltBytes)
          demoDraw.ivBytes (strBytes "hello world")),
        b64encode demoDraw.ivBytes, b64encode demoDraw.saltBytes⟩
      (by decide) (by decide)⟩

/-- C8: the stored key is the fixed namespace `"bvault_enc_"` plus the
original key; `setItem` writes only under that key (every other storage
entry reads unchanged), and `clear()` deletes exactly the entries whose
keys carry the namespace tag, leaving every other entry unchanged. -/
theorem C8_namespacing_and_clear_frame :
    (∀ k : String, nsKey k = "bvault_enc_" ++ k) ∧
    (∀ (st : VaultState) (i : StoreInstance) (pw k v : String)
        (d : EntropyDraw) (st' : VaultState), st.master = some pw →
        setItem st i k v d = .ok st' →
        (∃ envs, areaGet (st'.areaOf i) (nsKey k) = some envs) ∧
        (∀ k', k' ≠ nsKey k →
          areaGet (st'.areaOf i) k' = areaGet (st.areaOf i) k')) ∧
    (∀ (st : VaultState) (i : StoreInstance) (k' : String),
        nsHas k' = false →
        areaGet ((clear st i).areaOf i) k' = areaGet (st.areaOf i) k') ∧
    (∀ (st : VaultState) (i : StoreInstance) (k' : String),
        nsHas k' = true →
        areaGet ((clear st i).areaOf i) k' = none) := by
  refine ⟨fun k => rfl, ?_, ?_, ?_⟩
  · intro st i pw k v d st' hm hset
    unfold setItem at hset
    rw [hm] at hset
    simp only [] at hset
    cases henc : encrypt v pw d with
    | error e =>
      rw [henc] at hset
      exact absurd hset (by simp)
    | ok enc =>
      rw [henc] at hset
      simp only [Except.ok.injEq] at hset
      subst hset
      rw [areaOf_withArea]
      refine ⟨⟨envEncode enc, areaGet_areaSet_self _ _ _⟩, ?_⟩
      intro k' hk
      exact areaGet_areaSet_other _ _ hk
  · intro st i k' h
    unfold clear
    rw [areaOf_withArea]
    exact areaGet_clear_of_not_ns h
  · intro st i k' h
    unfold clear
    rw [areaOf_withArea]
    exact areaGet_clear_of_ns h

/-- Witness for C8 on a concrete store holding one unrelated plaintext
entry. -/
theorem C8_frame_witness :
    nsKey "userData" = "bvault_enc_" ++ "userData" ∧
    nsHas "plainKey" = false ∧
    areaGet ((clear ⟨some "pw", [("plainKey", "p"), (nsKey "a", "x")], []⟩
        .localStorage).areaOf .localStorage) "plainKey"
      = areaGet ((⟨some "pw", [("plainKey", "p"), (nsKey "a", "x")], []⟩ :
          VaultState).areaOf .localStorage) "plainKey" ∧
    nsHas (nsKey "a") = true ∧
    areaGet ((clear ⟨some "pw", [("plainKey", "p"), (nsKey "a", "x")], []⟩
        .localStorage).areaOf .localStorage) (nsKey "a") = none :=
  ⟨C8_namespacing_and_clear_frame.1 "userData", by decide,
    C8_namespacing_and_clear_frame.2.2.1
      ⟨some "pw", [("plainKey", "p"), (nsKey "a", "x")], []⟩ .localStorage
      "plainKey" (by decide),
    nsHas_nsKey "a",
    C8_namespacing_and_clear_frame.2.2.2
      ⟨some "pw", [("plainKey", "p"), (nsKey "a", "x")], []⟩ .localStorage
      (nsKey "a") (nsHas_nsKey "a")⟩

/-- C9: after initialization, `getItem(k)` for a key with no stored entry
under the namespaced key returns absent (`none`) without raising any
error. -/
theorem C9_get_absent_returns_none (st : VaultState) (i : StoreInstance)
    (pw k : String) (hm : st.master = some pw)
    (habs : areaGet (st.areaOf i) (nsKey k) = none) :
    getItem st i k = .ok none := by
  simp [getItem, hm, habs]

/-- Witness for C9 on an initialized empty store. -/
theorem C9_get_absent_witness :
    getItem ⟨some "pw", [], []⟩ .localStorage "userData" = .ok none :=
  C9_get_absent_returns_none ⟨some "pw", [], []⟩ .localStorage "pw"
    "userData" rfl rfl

/-- C10: `removeItem` and `clear` are synchronous total operations (their
codomain is a plain `VaultState`, never a promise-like error outcome) and
succeed on an uninitialized store — neither raises `InitializationError`,
unlike `setItem` and `getItem` — while actually performing their
deletions. -/
theorem C10_remove_clear_ungated :
    (∀ (st : VaultState) (i : StoreInstance) (k : String),
        st.master = none →
        (removeItem st i k).master = none ∧
        areaGet ((removeItem st i k).areaOf i) (nsKey k) = none) ∧
    (∀ (st : VaultState) (i : StoreInstance), st.master = none →
        (clear st i).master = none ∧
        ∀ k', nsHas k' = true →
          areaGet ((clear st i).areaOf i) k' = none) := by
  refine ⟨?_, ?_⟩
  · intro st i k hm
    refine ⟨?_, ?_⟩
    · rw [removeItem, master_withArea]
      exact hm
    · rw [removeItem, areaOf_withArea]
      exact areaGet_areaRemove_self _ _
  · intro st i hm
    refine ⟨?_, ?_⟩
    · rw [clear, master_withArea]
      exact hm
    · intro k' hk
      rw [clear, areaOf_withArea]
      exact areaGet_clear_of_ns hk

/-- Witness for C10 on a concrete uninitialized store holding namespaced
entries. -/
theorem C10_remove_clear_witness :
    ((removeItem ⟨none, [(nsKey "k", "x")], []⟩ .localStorage "k").master
        = none ∧
      areaGet ((removeItem ⟨none, [(nsKey "k", "x")], []⟩ .localStorage
          "k").areaOf .localStorage) (nsKey "k") = none) ∧
    ((clear ⟨none, [], [(nsKey "j", "y")]⟩ .sessionStorage).master = none ∧
      ∀ k', nsHas k' = true →
        areaGet ((clear ⟨none, [], [(nsKey "j", "y")]⟩
            .sessionStorage).areaOf .sessionStorage) k' = none) :=
  ⟨C10_remove_clear_ungated.1 ⟨none, [(nsKey "k", "x")], []⟩ .localStorage
      "k" rfl,
    C10_remove_clear_ungated.2 ⟨none, [], [(nsKey "j", "y")]⟩
      .sessionStorage rfl⟩

end BVault
